import Mathlib

/-!
Key decoder of the `term` header library.

A shallow embedding of `termUtils::getKeyCode` (src/termUtils.hpp) and the
properties of its decoding tables.  The two `#ifdef` branches of the source
(`__linux__` and `_WIN32`) are one function with the platform as a parameter.

From src/term.hpp come `KeyEvent` and `keyPress`, with the pending input as an
explicit list, the escape-code writers of `clear`, `color` and `cursor`, with
the output streams as an explicit state, and `cursor::position`, with its
`char buff[32]` as a list of 32 values whose accesses are checked.
-/

namespace term

/-- Modelled from the spec: the enumeration `term::Key` is declared in `keys.hpp`,
which is not among the sources.  The constructors are the enumerators that
`getKeyCode` and `KeyEvent` name (`Subtsract` is the spelling of the source),
a closed finite set as the data model of the spec describes it. -/
inductive Key where
  | None | Unknown
  | Backspace | Tab | Enter | Escape | Space
  | Add | Subtsract | Point | Slash
  | Num0 | Num1 | Num2 | Num3 | Num4 | Num5 | Num6 | Num7 | Num8 | Num9
  | A | B | C | D | E | F | G | H | I | J | K | L | M
  | N | O | P | Q | R | S | T | U | V | W | X | Y | Z
  | Up | Down | Right | Left
  | F1 | F2 | F3 | F4 | F5 | F6 | F7 | F8 | F9 | F10 | F11 | F12
  deriving DecidableEq, Repr

end term

namespace termUtils

open term

/-- The platform a translation unit is compiled for: `linux` stands for the
branches under `#ifdef __linux__`, `windows` for those under `#ifdef _WIN32`. -/
inductive Platform where
  | linux | windows
  deriving DecidableEq, Repr

/-- An element access outside the vector: `buf[i]` with `i ≥ buf.size()`. -/
structure Fault where
  index : Nat
  size : Nat
  deriving DecidableEq, Repr

/-- The access `buf[i]` of a `std::vector<int>`, with the bound made explicit. -/
def elemAt (buf : List Int) (i : Nat) : Except Fault Int :=
  match buf[i]? with
  | some v => .ok v
  | none => .error ⟨i, buf.length⟩

/-- The function `termUtils::getKeyCode`: dispatch on `buf.size()`, then on the
byte values; every path that leaves a `switch` or an `if` without a `return`
reaches the final `return term::Key::Unknown`. -/
def getKeyCode (p : Platform) (buf : List Int) : Except Fault Key := do
  if buf.isEmpty then
    return Key.None
  if buf.length = 1 then
    let b0 ← elemAt buf 0
    if p = .windows ∧ b0 = 8 then return Key.Backspace
    if b0 = 9 then return Key.Tab
    if b0 = 10 then return Key.Enter
    if b0 = 27 then return Key.Escape
    if b0 = 32 then return Key.Space
    if b0 = 43 then return Key.Add
    if b0 = 45 then return Key.Subtsract
    if b0 = 46 then return Key.Point
    if b0 = 47 then return Key.Slash
    if b0 = 48 then return Key.Num0
    if b0 = 49 then return Key.Num1
    if b0 = 50 then return Key.Num2
    if b0 = 51 then return Key.Num3
    if b0 = 52 then return Key.Num4
    if b0 = 53 then return Key.Num5
    if b0 = 54 then return Key.Num6
    if b0 = 55 then return Key.Num7
    if b0 = 56 then return Key.Num8
    if b0 = 57 then return Key.Num9
    if b0 = 58 then return Key.Slash
    if b0 = 97 ∨ b0 = 65 then return Key.A
    if b0 = 98 ∨ b0 = 66 then return Key.B
    if b0 = 99 ∨ b0 = 67 then return Key.C
    if b0 = 100 ∨ b0 = 68 then return Key.D
    if b0 = 101 ∨ b0 = 69 then return Key.E
    if b0 = 102 ∨ b0 = 70 then return Key.F
    if b0 = 103 ∨ b0 = 71 then return Key.G
    if b0 = 104 ∨ b0 = 72 then return Key.H
    if b0 = 105 ∨ b0 = 73 then return Key.I
    if b0 = 106 ∨ b0 = 74 then return Key.J
    if b0 = 107 ∨ b0 = 75 then return Key.K
    if b0 = 108 ∨ b0 = 76 then return Key.L
    if b0 = 109 ∨ b0 = 77 then return Key.M
    if b0 = 110 ∨ b0 = 78 then return Key.N
    if b0 = 111 ∨ b0 = 79 then return Key.O
    if b0 = 112 ∨ b0 = 80 then return Key.P
    if b0 = 113 ∨ b0 = 81 then return Key.Q
    if b0 = 114 ∨ b0 = 82 then return Key.R
    if b0 = 115 ∨ b0 = 83 then return Key.S
    if b0 = 116 ∨ b0 = 84 then return Key.T
    if b0 = 117 ∨ b0 = 85 then return Key.U
    if b0 = 118 ∨ b0 = 86 then return Key.V
    if b0 = 119 ∨ b0 = 87 then return Key.W
    if b0 = 120 ∨ b0 = 88 then return Key.X
    if b0 = 121 ∨ b0 = 89 then return Key.Y
    if b0 = 122 ∨ b0 = 90 then return Key.Z
    if p = .linux ∧ b0 = 127 then return Key.Backspace
  else if buf.length = 2 then
    if p = .windows then
      if (← elemAt buf 0) = 0 then
        let b1 ← elemAt buf 1
        if b1 = 59 then return Key.F1
        if b1 = 60 then return Key.F2
        if b1 = 61 then return Key.F3
        if b1 = 62 then return Key.F4
        if b1 = 63 then return Key.F5
        if b1 = 64 then return Key.F6
        if b1 = 65 then return Key.F7
        if b1 = 66 then return Key.F8
        if b1 = 67 then return Key.F9
        if b1 = 68 then return Key.F10
        if b1 = 69 then return Key.F11
      if (← elemAt buf 0) = 224 then
        let b1 ← elemAt buf 1
        if b1 = 72 then return Key.Up
        if b1 = 80 then return Key.Down
        if b1 = 77 then return Key.Right
        if b1 = 75 then return Key.Left
        if b1 = 134 then return Key.F12
  else if buf.length = 3 then
    if p = .linux then
      if (← elemAt buf 0) = 27 then
        if (← elemAt buf 1) = 91 then
          let b2 ← elemAt buf 2
          if b2 = 65 then return Key.Up
          if b2 = 66 then return Key.Down
          if b2 = 67 then return Key.Right
          if b2 = 68 then return Key.Left
        else if (← elemAt buf 1) = 79 then
          let b2 ← elemAt buf 2
          if b2 = 80 then return Key.F1
          if b2 = 81 then return Key.F2
          if b2 = 82 then return Key.F3
          if b2 = 83 then return Key.F4
  else if buf.length = 5 then
    if p = .linux then
      if (← elemAt buf 0) = 27 then
      if (← elemAt buf 1) = 91 then
      if (← elemAt buf 4) = 126 then
        if (← elemAt buf 2) = 49 then
          let b3 ← elemAt buf 3
          if b3 = 53 then return Key.F5
          if b3 = 55 then return Key.F6
          if b3 = 56 then return Key.F7
          if b3 = 57 then return Key.F8
        else if (← elemAt buf 2) = 50 then
          let b3 ← elemAt buf 3
          if b3 = 48 then return Key.F9
          if b3 = 49 then return Key.F10
          if b3 = 51 then return Key.F11
          if b3 = 52 then return Key.F12
  return Key.Unknown

end termUtils

namespace term

open termUtils

/-- The struct `KeyEvent`: a key code and the raw value paired with it. -/
structure KeyEvent where
  code : Key
  value : Int
  deriving DecidableEq, Repr

/-- The default constructor `KeyEvent()`: code `None`, value 0. -/
def KeyEvent.default : KeyEvent := ⟨Key.None, 0⟩

/-- One character read from the input (`std::getchar`, `_getch`): the first
pending byte and the input left, or `EOF` (-1) when no byte is pending. -/
def getchar (stdin : List Int) : Int × List Int :=
  match stdin with
  | [] => (-1, [])
  | c :: rest => (c, rest)

/-- The loop `while(hit > 0) { ...; hit--; }` of `keyPress` with `n` passes
left: on Linux a pass reads one character, on Windows it reads a second one
after a 0 or a 224.  The result is the last `chr`, the vector `chars` and the
input left. -/
def readLoop (p : Platform) : Nat → Int → List Int → List Int → Int × List Int × List Int
  | 0, chr, chars, stdin => (chr, chars, stdin)
  | n + 1, _, chars, stdin =>
    match p with
    | .linux =>
      let (chr, stdin1) := getchar stdin
      readLoop p n chr (chars ++ [chr]) stdin1
    | .windows =>
      let (chr, stdin1) := getchar stdin
      if chr = 0 ∨ chr = 224 then
        let (chr2, stdin2) := getchar stdin1
        readLoop p n chr2 (chars ++ [chr] ++ [chr2]) stdin2
      else
        readLoop p n chr (chars ++ [chr]) stdin1

/-- The function `term::keyPress`; `hit` is what `termUtils::kbHit()` returned
(on Linux the number of bytes waiting) and `stdin` the pending input.  The
pause of 10 ms before the return has no part in the result. -/
def keyPress (p : Platform) (hit : Int) (stdin : List Int) : Except Fault KeyEvent × List Int :=
  let (chr, chars, stdin1) := readLoop p hit.toNat 0 [] stdin
  ((getKeyCode p chars).map (fun code => KeyEvent.mk code chr), stdin1)

/-- An output stream a function can be handed as `std::ostream&`: standard
output or another stream. -/
inductive StreamId where
  | cout
  | other (id : Nat)
  deriving DecidableEq, Repr

/-- The state of one output stream: the characters inserted and not yet
flushed, and the characters flushed to its sink. -/
structure OStream where
  pending : String
  sink : String
  deriving DecidableEq, Repr

/-- All characters inserted into a stream so far, flushed or not. -/
def OStream.written (s : OStream) : String := s.sink ++ s.pending

/-- The state of every output stream. -/
abbrev Streams := StreamId → OStream

/-- The insertion `os << s`. -/
def Streams.write (w : Streams) (os : StreamId) (s : String) : Streams :=
  Function.update w os ⟨(w os).pending ++ s, (w os).sink⟩

/-- The insertion `os << std::flush`. -/
def Streams.flush (w : Streams) (os : StreamId) : Streams :=
  Function.update w os ⟨"", (w os).sink ++ (w os).pending⟩

/-- Streams into which nothing was inserted yet. -/
def Streams.empty : Streams := fun _ => ⟨"", ""⟩

namespace clear

def LINE : String := "\x1b[2K"
def LINE_TO_RIGHT : String := "\x1b[0K"
def LINE_TO_LEFT : String := "\x1b[1K"
def SCREEN : String := "\x1b[J"
def ALL_SCREEN : String := "\x1b[2J"
def SCREEN_TO_BOTTOM : String := "\x1b[0J"
def SCREEN_TO_TOP : String := "\x1b[1J"

/-- The function `clear::line`: `std::cout << LINE`, then `os << std::flush`
when `flush` is set. -/
def line (os : StreamId) (flush : Bool) (w : Streams) : Streams :=
  let w1 := w.write .cout LINE
  if flush then w1.flush os else w1

def lineToRight (os : StreamId) (flush : Bool) (w : Streams) : Streams :=
  let w1 := w.write .cout LINE_TO_RIGHT
  if flush then w1.flush os else w1

def lineToLeft (os : StreamId) (flush : Bool) (w : Streams) : Streams :=
  let w1 := w.write .cout LINE_TO_LEFT
  if flush then w1.flush os else w1

def screen (os : StreamId) (flush : Bool) (w : Streams) : Streams :=
  let w1 := w.write .cout SCREEN
  if flush then w1.flush os else w1

def allScreen (os : StreamId) (flush : Bool) (w : Streams) : Streams :=
  let w1 := w.write .cout ALL_SCREEN
  if flush then w1.flush os else w1

def screenToBottom (os : StreamId) (flush : Bool) (w : Streams) : Streams :=
  let w1 := w.write .cout SCREEN_TO_BOTTOM
  if flush then w1.flush os else w1

def screenToTop (os : StreamId) (flush : Bool) (w : Streams) : Streams :=
  let w1 := w.write .cout SCREEN_TO_TOP
  if flush then w1.flush os else w1

end clear

namespace color

def RESET : String := "\x1b[0m"

/-- The function `color::reset`: `os << RESET`, then `os << std::flush` when
`flush` is set. -/
def reset (os : StreamId) (flush : Bool) (w : Streams) : Streams :=
  let w1 := w.write os RESET
  if flush then w1.flush os else w1

end color

namespace cursor

def ON : String := "\x1b[?25h"

/-- The function `cursor::on` (`on` is a reserved word here, hence the name):
`os << ON`, then `os << std::flush` when `flush` is set. -/
def on_ (os : StreamId) (flush : Bool) (w : Streams) : Streams :=
  let w1 := w.write os ON
  if flush then w1.flush os else w1

end cursor

end term

namespace termUtils

/-- The vector `CHARS`: the characters '0'..'9' and ';', as their codes. -/
def CHARS : List Int := [48, 49, 50, 51, 52, 53, 54, 55, 56, 57, 59]

end termUtils

namespace term

open termUtils

/-- The struct `Pos`: row and column, both `std::size_t`. -/
structure Pos where
  row : Nat
  col : Nat
  deriving DecidableEq, Repr

/-- What stops `cursor::position` short of a return: an access outside `buff`,
one of the two exceptions of `std::stoi`, or a loop of the model left without
fuel. -/
inductive Failure where
  | outOfBounds (f : Fault)
  | invalidArgument
  | outOfRange
  | outOfFuel
  deriving DecidableEq, Repr

/-- The conversion `static_cast<char>(cc)` to a signed 8-bit `char`. -/
def toChar (cc : Int) : Int := (cc + 128) % 256 - 128

/-- The write `buff[i] = v` into the array `buff`, with the bound made explicit. -/
def setAt (buff : List Int) (i : Nat) (v : Int) : Except Failure (List Int) :=
  if i < buff.length then .ok (buff.set i v) else .error (.outOfBounds ⟨i, buff.length⟩)

/-- The read `buff[i]`, with the bound made explicit. -/
def getAt (buff : List Int) (i : Nat) : Except Failure Int :=
  match buff[i]? with
  | some v => .ok v
  | none => .error (.outOfBounds ⟨i, buff.length⟩)

/-- The predicate `isspace` of the C locale on a character code. -/
def isSpace (c : Int) : Bool := c = 32 || (9 ≤ c && c ≤ 13)

/-- The predicate `isdigit` on a character code. -/
def isDigit (c : Int) : Bool := 48 ≤ c && c ≤ 57

/-- The value of a run of decimal digits, most significant first. -/
def digitsValue (ds : List Int) : Int := ds.foldl (fun acc d => acc * 10 + (d - 48)) 0

/-- The function `std::stoi` in base 10 on a string given by its character
codes: leading white space is skipped, a sign is optional, the digits that
follow are converted; no digit is `std::invalid_argument`, a value outside the
range of `int` is `std::out_of_range`. -/
def stoi (str : List Int) : Except Failure Int :=
  let s1 := str.dropWhile isSpace
  let neg := s1.head? = some 45
  let s2 := if s1.head? = some 45 ∨ s1.head? = some 43 then s1.tail else s1
  let ds := s2.takeWhile isDigit
  if ds.isEmpty then .error .invalidArgument
  else
    let v := if neg then - digitsValue ds else digitsValue ds
    if v < -2147483648 ∨ 2147483647 < v then .error .outOfRange else .ok v

/-- The search `str.find(c)` for one character: the index of its first
occurrence, or none (`npos`). -/
def find (c : Int) : List Int → Option Nat
  | [] => none
  | x :: xs => if x = c then some 0 else (find c xs).map (· + 1)

/-- The conversion of an `int` to `std::size_t` (64 bits). -/
def toSizeT (v : Int) : Nat := (v % 18446744073709551616).toNat

namespace cursor

/-- The first loop of `cursor::position`: read characters into `buff` from
`indx` on until an 'R' was stored, then store a 0 at `indx + 1`.  The result is
the array and the input left. -/
def readReply : Nat → Nat → List Int → List Int → Except Failure (List Int × List Int)
  | 0, _, _, _ => .error .outOfFuel
  | fuel + 1, indx, buff, stdin => do
    let (cc, stdin1) := getchar stdin
    let buff1 ← setAt buff indx (toChar cc)
    let indx1 := indx + 1
    if cc = 82 then
      let buff2 ← setAt buff1 (indx1 + 1) 0
      return (buff2, stdin1)
    else
      readReply fuel indx1 buff1 stdin1

/-- The second loop of `cursor::position`: from `chr = buff[indx]` on, append to
`str` the characters that are in `CHARS`, until `chr` is 'R'. -/
def collect : Nat → Nat → Int → List Int → List Int → Except Failure (List Int)
  | 0, _, _, _, _ => .error .outOfFuel
  | fuel + 1, indx, chr, buff, str =>
    if chr ≠ 82 then do
      let str1 := if chr ∈ CHARS then str ++ [chr] else str
      let chr1 ← getAt buff (indx + 1)
      collect fuel (indx + 1) chr1 buff str1
    else
      .ok str

/-- The function `cursor::position`: the query is written to standard output,
the reply is read into `char buff[32]`, filtered and split at the first ';'.
`substr(0, pos)` is the part before it, or all of `str` when there is none
(`npos`); `substr(pos + 1)` is the part after it, or all of `str` when there is
none (`npos + 1` is 0).  The row is converted before the column here; the
source leaves the order of the two conversions open.  No loop runs more than
33 times before an access leaves `buff`, which is the fuel given. -/
def position (w : Streams) (stdin : List Int) : Streams × Except Failure (Pos × List Int) :=
  let w1 := (w.write .cout "\x1b[6n").flush .cout
  (w1, do
    let buff0 := List.replicate 32 (0 : Int)
    let (buff, stdin1) ← readReply 33 0 buff0 stdin
    let chr ← getAt buff 1
    let str ← collect 33 1 chr buff []
    let (first, second) :=
      match find 59 str with
      | some pos => (str.take pos, str.drop (pos + 1))
      | none => (str, str)
    let row ← stoi first
    let col ← stoi second
    return (⟨toSizeT row, toSizeT col⟩, stdin1))

end cursor

/-- The decimal numeral of `n` as character codes, most significant digit
first, without leading zeros ("0" for 0). -/
def decimal (n : Nat) : List Int :=
  if n = 0 then [48] else (Nat.digits 10 n).reverse.map (fun (d : Nat) => 48 + (d : Int))

/-- The reply of the terminal to the position query: ESC '[' row ';' col 'R'. -/
def reply (r c : Nat) : List Int :=
  [27, 91] ++ decimal r ++ [59] ++ decimal c ++ [82]

end term



namespace termUtils

open term

/-! ## Tables the decoder is compared with -/

/-- The digit keys in the order of their digits. -/
def digitKeys : List Key :=
  [Key.Num0, Key.Num1, Key.Num2, Key.Num3, Key.Num4,
   Key.Num5, Key.Num6, Key.Num7, Key.Num8, Key.Num9]

/-- The letter keys in alphabetical order. -/
def letterKeys : List Key :=
  [Key.A, Key.B, Key.C, Key.D, Key.E, Key.F, Key.G, Key.H, Key.I, Key.J, Key.K, Key.L, Key.M,
   Key.N, Key.O, Key.P, Key.Q, Key.R, Key.S, Key.T, Key.U, Key.V, Key.W, Key.X, Key.Y, Key.Z]

/-- The function keys F1..F12 in order. -/
def functionKeys : List Key :=
  [Key.F1, Key.F2, Key.F3, Key.F4, Key.F5, Key.F6,
   Key.F7, Key.F8, Key.F9, Key.F10, Key.F11, Key.F12]

/-- The byte that stands for Backspace on each platform. -/
def backspaceByte : Platform → Int
  | .linux => 127
  | .windows => 8

/-- The one-byte values with a key of their own: the set
9, 10, 27, 32, 43, 45, 46, 47, 48..58, 65..90, 97..122 and the Backspace byte
of the platform. -/
def recognisedOneByte (p : Platform) (v : Int) : Prop :=
  v ∈ [9, 10, 27, 32, 43, 45, 46, 47] ∨ (48 ≤ v ∧ v ≤ 58) ∨ (65 ≤ v ∧ v ≤ 90)
    ∨ (97 ≤ v ∧ v ≤ 122) ∨ v = backspaceByte p

instance (p : Platform) (v : Int) : Decidable (recognisedOneByte p v) := by
  unfold recognisedOneByte
  infer_instance

/-! ## Evaluation lemmas -/

theorem ok_bind {ε α β : Type} (a : α) (f : α → Except ε β) :
    (Except.ok a >>= f) = f a := rfl

theorem pure_eq_ok {ε α : Type} (a : α) : (pure a : Except ε α) = Except.ok a := rfl

theorem exists_ok_ite {c : Prop} [Decidable c] {x y : Except Fault Key}
    (hx : ∃ k, x = .ok k) (hy : ∃ k, y = .ok k) : ∃ k, (if c then x else y) = .ok k := by
  split
  · exact hx
  · exact hy

/-- A one-byte sequence outside the recognised set leaves the switch without a
return. -/
theorem single_unrecognised (p : Platform) (v : Int) (h : ¬ recognisedOneByte p v) :
    getKeyCode p [v] = .ok Key.Unknown := by
  have e : ∀ k, recognisedOneByte p k → (v = k) = False :=
    fun k hk => eq_false (fun hv => h (hv ▸ hk))
  cases p <;>
    simp [getKeyCode, elemAt, ok_bind, pure_eq_ok, e, recognisedOneByte, backspaceByte]

/-- A sequence of a length without a branch reaches the final return. -/
theorem other_length (p : Platform) (buf : List Int) (h : buf.length ∉ [0, 1, 2, 3, 5]) :
    getKeyCode p buf = .ok Key.Unknown := by
  simp only [List.mem_cons, List.mem_singleton, List.not_mem_nil, or_false, not_or] at h
  obtain ⟨h0, h1, h2, h3, h5⟩ := h
  have hne : buf.isEmpty = false := by
    cases buf with
    | nil => exact absurd rfl h0
    | cons a t => rfl
  simp [getKeyCode, hne, h1, h2, h3, h5, pure_eq_ok, ok_bind]

/-- Every call returns a key: no access leaves the vector. -/
theorem exists_key (p : Platform) (buf : List Int) : ∃ k, getKeyCode p buf = .ok k := by
  match buf with
  | [] => exact ⟨Key.None, rfl⟩
  | [a] =>
    cases p <;>
    · simp [getKeyCode, elemAt, ok_bind, pure_eq_ok]
      repeat (first | exact ⟨_, rfl⟩ | apply exists_ok_ite)
  | [a, b] =>
    cases p <;>
    · simp [getKeyCode, elemAt, ok_bind, pure_eq_ok]
      repeat (first | exact ⟨_, rfl⟩ | apply exists_ok_ite)
  | [a, b, c] =>
    cases p <;>
    · simp [getKeyCode, elemAt, ok_bind, pure_eq_ok]
      repeat (first | exact ⟨_, rfl⟩ | apply exists_ok_ite)
  | [a, b, c, d] => exact ⟨_, other_length p _ (by simp)⟩
  | [a, b, c, d, e] =>
    cases p <;>
    · simp [getKeyCode, elemAt, ok_bind, pure_eq_ok]
      repeat (first | exact ⟨_, rfl⟩ | apply exists_ok_ite)
  | a :: b :: c :: d :: e :: f :: t => exact ⟨_, other_length p _ (by simp)⟩

theorem letter_upper (p : Platform) (u : Int) (hlo : 65 ≤ u) (hhi : u ≤ 90) :
    getKeyCode p [u] = .ok (letterKeys.getD (u - 65).toNat Key.Unknown) := by
  interval_cases u <;> cases p <;> rfl

theorem letter_lower (p : Platform) (u : Int) (hlo : 65 ≤ u) (hhi : u ≤ 90) :
    getKeyCode p [u + 32] = .ok (letterKeys.getD (u - 65).toNat Key.Unknown) := by
  interval_cases u <;> cases p <;> rfl

theorem letterKeys_inj (i j : Nat) (hi : i < 26) (hj : j < 26)
    (h : letterKeys.getD i Key.Unknown = letterKeys.getD j Key.Unknown) : i = j := by
  interval_cases i <;> interval_cases j <;> first | rfl | exact absurd h (by decide)

/-! ## The claims -/

/-- C1: on the Linux and on the Windows model, the empty sequence decodes to
`Key::None`. -/
theorem getKeyCode_empty_none :
    getKeyCode .linux [] = .ok Key.None ∧ getKeyCode .windows [] = .ok Key.None :=
  ⟨rfl, rfl⟩

/-- C2: on both platforms, a single byte `b` with `48 ≤ b ≤ 57` decodes to the
digit key of `b - 48`, that is 48 to Num0, 49 to Num1, up to 57 to Num9. -/
theorem getKeyCode_digit (p : Platform) (b : Int) (hlo : 48 ≤ b) (hhi : b ≤ 57) :
    getKeyCode p [b] = .ok (digitKeys.getD (b - 48).toNat Key.Unknown) := by
  interval_cases b <;> cases p <;> rfl

theorem getKeyCode_digit_witness :
    (48 : Int) ≤ 53 ∧ (53 : Int) ≤ 57 ∧ getKeyCode .linux [53] = .ok Key.Num5 :=
  ⟨by decide, by decide, getKeyCode_digit .linux 53 (by decide) (by decide)⟩

/-- C3: on both platforms, for an upper-case letter byte `u` with `65 ≤ u ≤ 90`
the sequences `[u]` and `[u + 32]` decode to the same key, the one at place
`u - 65` of A..Z, and two distinct letters decode to distinct keys. -/
theorem getKeyCode_letter (p : Platform) (u w : Int)
    (hlo : 65 ≤ u) (hhi : u ≤ 90) (hlo2 : 65 ≤ w) (hhi2 : w ≤ 90) :
    getKeyCode p [u] = getKeyCode p [u + 32]
    ∧ getKeyCode p [u] = .ok (letterKeys.getD (u - 65).toNat Key.Unknown)
    ∧ (u ≠ w → getKeyCode p [u] ≠ getKeyCode p [w]) := by
  refine ⟨(letter_upper p u hlo hhi).trans (letter_lower p u hlo hhi).symm,
    letter_upper p u hlo hhi, ?_⟩
  intro hne heq
  rw [letter_upper p u hlo hhi, letter_upper p w hlo2 hhi2] at heq
  have := letterKeys_inj (u - 65).toNat (w - 65).toNat (by omega) (by omega)
    (Except.ok.inj heq)
  omega

theorem getKeyCode_letter_witness :
    getKeyCode .windows [90] = getKeyCode .windows [122]
    ∧ getKeyCode .windows [90] = .ok Key.Z
    ∧ ((90 : Int) ≠ 65 → getKeyCode .windows [90] ≠ getKeyCode .windows [65]) :=
  getKeyCode_letter .windows 90 65 (by decide) (by decide) (by decide) (by decide)

/-- C4: for every integer `v`, negative or above 255 included, that is not in
the recognised one-byte set of the platform, `[v]` decodes to `Key::Unknown`. -/
theorem getKeyCode_single_unknown (p : Platform) (v : Int) (h : ¬ recognisedOneByte p v) :
    getKeyCode p [v] = .ok Key.Unknown :=
  single_unrecognised p v h

theorem getKeyCode_single_unknown_witness :
    ¬ recognisedOneByte .linux 200 ∧ getKeyCode .linux [200] = .ok Key.Unknown :=
  ⟨by decide, getKeyCode_single_unknown .linux 200 (by decide)⟩

/-- C5: on Linux the three-byte sequences 27 91 65..68 decode to Up, Down,
Right, Left and 27 79 80..83 decode to F1, F2, F3, F4. -/
theorem getKeyCode_linux_three :
    getKeyCode .linux [27, 91, 65] = .ok Key.Up
    ∧ getKeyCode .linux [27, 91, 66] = .ok Key.Down
    ∧ getKeyCode .linux [27, 91, 67] = .ok Key.Right
    ∧ getKeyCode .linux [27, 91, 68] = .ok Key.Left
    ∧ getKeyCode .linux [27, 79, 80] = .ok Key.F1
    ∧ getKeyCode .linux [27, 79, 81] = .ok Key.F2
    ∧ getKeyCode .linux [27, 79, 82] = .ok Key.F3
    ∧ getKeyCode .linux [27, 79, 83] = .ok Key.F4 :=
  ⟨rfl, rfl, rfl, rfl, rfl, rfl, rfl, rfl⟩

/-- C6: on Linux the five-byte sequences 27 91 49 x 126 with x = 53, 55, 56, 57
decode to F5, F6, F7, F8 and 27 91 50 y 126 with y = 48, 49, 51, 52 decode to
F9, F10, F11, F12. -/
theorem getKeyCode_linux_five :
    getKeyCode .linux [27, 91, 49, 53, 126] = .ok Key.F5
    ∧ getKeyCode .linux [27, 91, 49, 55, 126] = .ok Key.F6
    ∧ getKeyCode .linux [27, 91, 49, 56, 126] = .ok Key.F7
    ∧ getKeyCode .linux [27, 91, 49, 57, 126] = .ok Key.F8
    ∧ getKeyCode .linux [27, 91, 50, 48, 126] = .ok Key.F9
    ∧ getKeyCode .linux [27, 91, 50, 49, 126] = .ok Key.F10
    ∧ getKeyCode .linux [27, 91, 50, 51, 126] = .ok Key.F11
    ∧ getKeyCode .linux [27, 91, 50, 52, 126] = .ok Key.F12 :=
  ⟨rfl, rfl, rfl, rfl, rfl, rfl, rfl, rfl⟩

/-- C7: on Windows the two-byte sequences 224 72, 224 80, 224 77, 224 75 decode
to Up, Down, Right, Left and 224 134 decodes to F12. -/
theorem getKeyCode_windows_arrows :
    getKeyCode .windows [224, 72] = .ok Key.Up
    ∧ getKeyCode .windows [224, 80] = .ok Key.Down
    ∧ getKeyCode .windows [224, 77] = .ok Key.Right
    ∧ getKeyCode .windows [224, 75] = .ok Key.Left
    ∧ getKeyCode .windows [224, 134] = .ok Key.F12 :=
  ⟨rfl, rfl, rfl, rfl, rfl⟩

/-- C8: on both platforms a sequence whose length is not 0, 1, 2, 3 or 5
decodes to `Key::Unknown`, whatever it holds. -/
theorem getKeyCode_other_length_unknown (p : Platform) (buf : List Int)
    (h : buf.length ∉ [0, 1, 2, 3, 5]) : getKeyCode p buf = .ok Key.Unknown :=
  other_length p buf h

theorem getKeyCode_other_length_unknown_witness :
    [27, 91, 65, 66].length ∉ [0, 1, 2, 3, 5]
    ∧ getKeyCode .linux [27, 91, 65, 66] = .ok Key.Unknown :=
  ⟨by decide, getKeyCode_other_length_unknown .linux [27, 91, 65, 66] (by decide)⟩

/-- C9: the decoder is total: on either platform and for every finite sequence
of integers it returns exactly one key, and no element access it performs is
out of bounds, so the result is never a fault. -/
theorem getKeyCode_total (p : Platform) (buf : List Int) :
    (∃! k, getKeyCode p buf = .ok k) ∧ ∀ f, getKeyCode p buf ≠ .error f := by
  obtain ⟨k, hk⟩ := exists_key p buf
  refine ⟨⟨k, hk, ?_⟩, ?_⟩
  · intro k2 h2
    rw [hk] at h2
    exact (Except.ok.inj h2).symm
  · intro f hf
    rw [hk] at hf
    exact Except.noConfusion hf

/-- C10: on both platforms the single bytes 9, 10, 27, 32 decode to Tab, Enter,
Escape, Space and 43, 45, 46, 47 decode to Add, Subtract, Point, Slash. -/
theorem getKeyCode_control_punctuation (p : Platform) :
    getKeyCode p [9] = .ok Key.Tab
    ∧ getKeyCode p [10] = .ok Key.Enter
    ∧ getKeyCode p [27] = .ok Key.Escape
    ∧ getKeyCode p [32] = .ok Key.Space
    ∧ getKeyCode p [43] = .ok Key.Add
    ∧ getKeyCode p [45] = .ok Key.Subtsract
    ∧ getKeyCode p [46] = .ok Key.Point
    ∧ getKeyCode p [47] = .ok Key.Slash := by
  cases p <;> exact ⟨rfl, rfl, rfl, rfl, rfl, rfl, rfl, rfl⟩

/-- C11: Backspace is platform specific: on Linux `[127]` decodes to Backspace,
on Windows `[8]` does. -/
theorem getKeyCode_backspace :
    getKeyCode .linux [127] = .ok Key.Backspace
    ∧ getKeyCode .windows [8] = .ok Key.Backspace :=
  ⟨rfl, rfl⟩

/-- C12: on Linux every two-byte sequence decodes to `Key::Unknown`, whatever
the two bytes are. -/
theorem getKeyCode_linux_two_unknown (a b : Int) :
    getKeyCode .linux [a, b] = .ok Key.Unknown := by
  simp [getKeyCode, elemAt, ok_bind, pure_eq_ok]

/-- C13: on Windows the sequence `(0, b)` decodes to the function key F(b-58)
when `59 ≤ b ≤ 69` (59 to F1, up to 69 to F11), and to `Key::Unknown` for every
other second byte. -/
theorem getKeyCode_windows_zero_lead (b : Int) :
    getKeyCode .windows [0, b]
      = .ok (if 59 ≤ b ∧ b ≤ 69 then functionKeys.getD (b - 59).toNat Key.Unknown
             else Key.Unknown) := by
  by_cases h : 59 ≤ b ∧ b ≤ 69
  · rw [if_pos h]
    obtain ⟨h1, h2⟩ := h
    interval_cases b <;> rfl
  · rw [if_neg h]
    have e : ∀ k : Int, (59 ≤ k ∧ k ≤ 69) → (b = k) = False :=
      fun k hk => eq_false (fun hv => h (hv ▸ hk))
    simp [getKeyCode, elemAt, ok_bind, pure_eq_ok, e]

/-- C16: on Windows every three-byte and every five-byte sequence decodes to
`Key::Unknown`: the escape sequences are recognised on Linux only. -/
theorem getKeyCode_windows_three_five_unknown (a b c d e : Int) :
    getKeyCode .windows [a, b, c] = .ok Key.Unknown
    ∧ getKeyCode .windows [a, b, c, d, e] = .ok Key.Unknown := by
  constructor <;> simp [getKeyCode, elemAt, ok_bind, pure_eq_ok]

/-- C17: on both platforms byte 58 decodes to Slash, the same key as byte 47. -/
theorem getKeyCode_colon_slash (p : Platform) :
    getKeyCode p [58] = .ok Key.Slash
    ∧ getKeyCode p [47] = .ok Key.Slash
    ∧ getKeyCode p [58] = getKeyCode p [47] := by
  cases p <;> exact ⟨rfl, rfl, rfl⟩

end termUtils

namespace term

open termUtils

/-- The Linux loop of `keyPress` with as many passes as bytes: it collects the
bytes in order and leaves the last one in `chr`. -/
theorem readLoop_linux (bs : List Int) (chr : Int) (chars rest : List Int) :
    readLoop .linux bs.length chr chars (bs ++ rest) = (bs.getLastD chr, chars ++ bs, rest) := by
  induction bs generalizing chr chars with
  | nil => simp [readLoop]
  | cons b bs ih =>
    simp only [List.length_cons, readLoop, List.cons_append, getchar]
    rw [ih]
    simp only [List.getLastD_cons, List.append_assoc, List.singleton_append]

/-- For a stream other than standard output, `clear::line` inserts nothing into
the stream and inserts its code into standard output. -/
theorem clear_line_other (os : StreamId) (flush : Bool) (w : Streams) (h : os ≠ .cout) :
    (clear.line os flush w os).written = (w os).written
    ∧ (clear.line os flush w .cout).written = (w .cout).written ++ clear.LINE := by
  cases flush <;>
    simp [clear.line, Streams.write, Streams.flush, OStream.written, Function.update, h,
      Ne.symm h, String.append_assoc]

/-- C19: on Linux, when the polling pass reads the bytes `bs ++ [bn]` (one byte
at least), `keyPress` returns the key `getKeyCode` gives for them paired with the
last byte `bn`; when no byte is waiting it returns code `None` and value 0, the
default-constructed `KeyEvent`. -/
theorem keyPress_linux (bs : List Int) (bn : Int) (rest : List Int) :
    (∃ k, getKeyCode .linux (bs ++ [bn]) = .ok k
      ∧ keyPress .linux ((bs ++ [bn]).length : Nat) (bs ++ [bn] ++ rest) = (.ok ⟨k, bn⟩, rest))
    ∧ keyPress .linux 0 rest = (.ok ⟨Key.None, 0⟩, rest)
    ∧ KeyEvent.default = ⟨Key.None, 0⟩ := by
  refine ⟨?_, rfl, rfl⟩
  obtain ⟨k, hk⟩ := exists_key .linux (bs ++ [bn])
  refine ⟨k, hk, ?_⟩
  simp only [keyPress, Int.toNat_ofNat, readLoop_linux, List.nil_append, hk, Except.map]
  simp

/-- C20, the code at a stream other than standard output, with the flush flag
set and nothing written before: each function of `clear` leaves the stream it
is given empty and inserts its code into standard output, whereas `cursor::on`
and `color::reset` insert their code into the stream given. -/
theorem clear_writes_to_cout :
    (clear.line (.other 0) true Streams.empty (.other 0)).written = ""
    ∧ (clear.line (.other 0) true Streams.empty .cout).written = "\x1b[2K"
    ∧ (clear.lineToRight (.other 0) true Streams.empty (.other 0)).written = ""
    ∧ (clear.lineToRight (.other 0) true Streams.empty .cout).written = "\x1b[0K"
    ∧ (clear.lineToLeft (.other 0) true Streams.empty (.other 0)).written = ""
    ∧ (clear.lineToLeft (.other 0) true Streams.empty .cout).written = "\x1b[1K"
    ∧ (clear.screen (.other 0) true Streams.empty (.other 0)).written = ""
    ∧ (clear.screen (.other 0) true Streams.empty .cout).written = "\x1b[J"
    ∧ (clear.allScreen (.other 0) true Streams.empty (.other 0)).written = ""
    ∧ (clear.allScreen (.other 0) true Streams.empty .cout).written = "\x1b[2J"
    ∧ (clear.screenToBottom (.other 0) true Streams.empty (.other 0)).written = ""
    ∧ (clear.screenToBottom (.other 0) true Streams.empty .cout).written = "\x1b[0J"
    ∧ (clear.screenToTop (.other 0) true Streams.empty (.other 0)).written = ""
    ∧ (clear.screenToTop (.other 0) true Streams.empty .cout).written = "\x1b[1J"
    ∧ (cursor.on_ (.other 0) true Streams.empty (.other 0)).written = "\x1b[?25h"
    ∧ (cursor.on_ (.other 0) true Streams.empty .cout).written = ""
    ∧ (color.reset (.other 0) true Streams.empty (.other 0)).written = "\x1b[0m"
    ∧ (color.reset (.other 0) true Streams.empty .cout).written = "" := by
  decide

end term

namespace termUtils

open term

theorem ite_ne_of_ne {c : Prop} [Decidable c] {x y z : Except Fault Key}
    (hx : x ≠ z) (hy : y ≠ z) : (if c then x else y) ≠ z := by
  split
  · exact hx
  · exact hy

theorem ne_none_of_ne_nil (p : Platform) (buf : List Int) (h : buf ≠ []) :
    getKeyCode p buf ≠ .ok Key.None := by
  match buf, h with
  | [a], _ =>
    cases p <;>
    · simp only [getKeyCode, elemAt, List.isEmpty_cons, List.length_cons, List.length_nil]
      simp [ok_bind, pure_eq_ok]
      repeat (first | (intro h; cases h) | apply ite_ne_of_ne)
  | [a, b], _ =>
    cases p <;>
    · simp only [getKeyCode, elemAt, List.isEmpty_cons, List.length_cons, List.length_nil]
      simp [ok_bind, pure_eq_ok]
      repeat (first | (intro h; cases h) | apply ite_ne_of_ne)
  | [a, b, c], _ =>
    cases p <;>
    · simp only [getKeyCode, elemAt, List.isEmpty_cons, List.length_cons, List.length_nil]
      simp [ok_bind, pure_eq_ok]
      repeat (first | (intro h; cases h) | apply ite_ne_of_ne)
  | [a, b, c, d], _ => rw [other_length p _ (by simp)]; intro h; cases h
  | [a, b, c, d, e], _ =>
    cases p <;>
    · simp only [getKeyCode, elemAt, List.isEmpty_cons, List.length_cons, List.length_nil]
      simp [ok_bind, pure_eq_ok]
      repeat (first | (intro h; cases h) | apply ite_ne_of_ne)
  | a :: b :: c :: d :: e :: f :: t, _ => rw [other_length p _ (by simp)]; intro h; cases h

/-- C21: on both platforms `getKeyCode` returns `Key::None` exactly for the
empty sequence: no sequence with a byte in it decodes to `None`. -/
theorem getKeyCode_none_iff_empty (p : Platform) (buf : List Int) :
    getKeyCode p buf = .ok Key.None ↔ buf = [] := by
  constructor
  · intro h
    by_contra hne
    exact ne_none_of_ne_nil p buf hne h
  · intro h
    subst h
    rfl

/-- C22: the two platforms agree on the empty sequence and on `[v]` for every
integer `v` other than 8 and 127; for 8 Linux gives Unknown and Windows
Backspace, for 127 Windows gives Unknown and Linux Backspace. -/
theorem getKeyCode_platforms_agree (v : Int) (h8 : v ≠ 8) (h127 : v ≠ 127) :
    getKeyCode .linux [v] = getKeyCode .windows [v]
    ∧ getKeyCode .linux [] = getKeyCode .windows []
    ∧ getKeyCode .linux [8] = .ok Key.Unknown
    ∧ getKeyCode .windows [8] = .ok Key.Backspace
    ∧ getKeyCode .windows [127] = .ok Key.Unknown
    ∧ getKeyCode .linux [127] = .ok Key.Backspace := by
  refine ⟨?_, rfl, rfl, rfl, rfl, rfl⟩
  simp [getKeyCode, elemAt, ok_bind, pure_eq_ok, h8, h127]

theorem getKeyCode_platforms_agree_witness :
    (200 : Int) ≠ 8 ∧ (200 : Int) ≠ 127
    ∧ getKeyCode .linux [200] = getKeyCode .windows [200] :=
  ⟨by decide, by decide, (getKeyCode_platforms_agree 200 (by decide) (by decide)).1⟩

end termUtils

namespace term
open termUtils

theorem set_append_mid (done tail : List Int) (x v : Int) :
    (done ++ x :: tail).set done.length v = done ++ v :: tail := by
  induction done with
  | nil => rfl
  | cons a l ih => simp [ih]

theorem set_append_add (l t : List Int) (j : Nat) (v : Int) :
    (l ++ t).set (l.length + j) v = l ++ t.set j v := by
  induction l with
  | nil => simp
  | cons a l ih =>
    have : (a :: l).length + j = (l.length + j) + 1 := by simp; omega
    rw [this]
    simp [ih]

theorem set_replicate_zero (m j : Nat) :
    (List.replicate m (0 : Int)).set j 0 = List.replicate m 0 := by
  induction m generalizing j with
  | zero => simp
  | succ m ih =>
    cases j with
    | zero => simp [List.replicate_succ]
    | succ j => simp [List.replicate_succ, ih]

theorem toChar_ascii (x : Int) (h0 : 0 ≤ x) (h1 : x < 128) : toChar x = x := by
  unfold toChar
  omega

theorem setAt_ok (buff : List Int) (i : Nat) (v : Int) (h : i < buff.length) :
    setAt buff i v = .ok (buff.set i v) := by
  simp [setAt, h]

theorem bind_ok {α β : Type} (a : α) (f : α → Except Failure β) :
    (Except.ok a >>= f) = f a := rfl

theorem readReply_reply (pre : List Int) :
    ∀ (done : List Int) (m fuel : Nat) (rest : List Int),
      (∀ x ∈ pre, 0 ≤ x ∧ x < 128 ∧ x ≠ 82) → pre.length < fuel → pre.length + 3 ≤ m →
      cursor.readReply fuel done.length (done ++ List.replicate m 0) (pre ++ 82 :: rest)
        = .ok (done ++ pre ++ 82 :: List.replicate (m - pre.length - 1) 0, rest) := by
  induction pre with
  | nil =>
    intro done m fuel rest _ hf hm
    obtain ⟨f, rfl⟩ : ∃ f, fuel = f + 1 := ⟨fuel - 1, by simp at hf; omega⟩
    obtain ⟨k, rfl⟩ : ∃ k, m = k + 3 := ⟨m - 3, by simp at hm; omega⟩
    have e1 : setAt (done ++ List.replicate (k + 3) 0) done.length (toChar 82)
        = .ok (done ++ 82 :: List.replicate (k + 2) 0) := by
      rw [setAt_ok _ _ _ (by simp), List.replicate_succ, set_append_mid]
      rfl
    have e2 : setAt (done ++ 82 :: List.replicate (k + 2) 0) (done.length + 1 + 1) 0
        = .ok (done ++ 82 :: List.replicate (k + 2) 0) := by
      rw [setAt_ok _ _ _ (by simp; omega)]
      have : done.length + 1 + 1 = done.length + 2 := rfl
      rw [this, set_append_add]
      simp [List.replicate_succ]
    simp only [cursor.readReply, List.nil_append, getchar, e1, bind_ok, if_true, e2]
    simp
    rfl
  | cons a pre ih =>
    intro done m fuel rest hpre hf hm
    obtain ⟨f, rfl⟩ : ∃ f, fuel = f + 1 := ⟨fuel - 1, by simp at hf; omega⟩
    obtain ⟨k, rfl⟩ : ∃ k, m = k + 1 := ⟨m - 1, by simp at hm; omega⟩
    have ha := hpre a (List.mem_cons_self _ _)
    have e1 : setAt (done ++ List.replicate (k + 1) 0) done.length (toChar a)
        = .ok ((done ++ [a]) ++ List.replicate k 0) := by
      rw [setAt_ok _ _ _ (by simp), List.replicate_succ, set_append_mid,
        toChar_ascii a ha.1 ha.2.1]
      simp
    have hlen : done.length + 1 = (done ++ [a]).length := by simp
    simp only [cursor.readReply, List.cons_append, getchar, e1, bind_ok, if_neg ha.2.2]
    rw [hlen, ih (done ++ [a]) k f rest (fun x hx => hpre x (List.mem_cons_of_mem _ hx))
      (by simp at hf; omega) (by simp at hm; omega)]
    simp

theorem getAt_append_next (seen rest : List Int) (chr x : Int) :
    getAt (seen ++ chr :: x :: rest) (seen.length + 1) = .ok x := by
  have h : (seen ++ chr :: x :: rest)[seen.length + 1]? = some x := by
    induction seen with
    | nil => simp
    | cons a l ih => simpa using ih
  simp only [getAt, h]

theorem collect_reply (todo : List Int) :
    ∀ (seen : List Int) (chr : Int) (str tail : List Int) (fuel : Nat),
      (∀ x ∈ chr :: todo, x ≠ 82) → todo.length + 1 < fuel →
      cursor.collect fuel seen.length chr (seen ++ chr :: (todo ++ 82 :: tail)) str
        = .ok (str ++ (chr :: todo).filter (fun x => decide (x ∈ CHARS))) := by
  induction todo with
  | nil =>
    intro seen chr str tail fuel hne hf
    obtain ⟨f, rfl⟩ : ∃ f, fuel = f + 2 := ⟨fuel - 2, by simp at hf; omega⟩
    have hc := hne chr (List.mem_cons_self _ _)
    simp only [cursor.collect, List.nil_append, getAt_append_next, bind_ok, hc, ne_eq,
      not_false_eq_true, if_true, not_true_eq_false, if_false]
    by_cases hm : chr ∈ CHARS <;> simp [hm]
  | cons t ts ih =>
    intro seen chr str tail fuel hne hf
    obtain ⟨f, rfl⟩ : ∃ f, fuel = f + 1 := ⟨fuel - 1, by omega⟩
    have hc := hne chr (List.mem_cons_self _ _)
    have hlen : seen.length + 1 = (seen ++ [chr]).length := by simp
    have hbuf : seen ++ chr :: (t :: ts ++ 82 :: tail) = (seen ++ [chr]) ++ t :: (ts ++ 82 :: tail) := by
      simp
    simp only [cursor.collect, List.cons_append, getAt_append_next, bind_ok, hc, ne_eq,
      not_false_eq_true, if_true]
    rw [hlen, ← List.cons_append, hbuf,
      ih (seen ++ [chr]) t _ tail f (fun x hx => hne x (List.mem_cons_of_mem _ hx))
        (by simp at hf; omega)]
    by_cases hm : chr ∈ CHARS <;> simp [hm, List.filter_cons]

theorem find_append (c : Int) (l t : List Int) (h : c ∉ l) :
    find c (l ++ c :: t) = some l.length := by
  induction l with
  | nil => simp [find]
  | cons a l ih =>
    have ha : a ≠ c := fun e => h (e ▸ List.mem_cons_self _ _)
    have hl : c ∉ l := fun e => h (List.mem_cons_of_mem _ e)
    simp [find, ha, ih hl]

theorem digitsValue_append (l : List Int) (d : Int) :
    digitsValue (l ++ [d]) = digitsValue l * 10 + (d - 48) := by
  simp [digitsValue, List.foldl_append]

theorem digitsValue_digits (L : List Nat) :
    digitsValue (L.reverse.map (fun (d : Nat) => 48 + (d : Int))) = (Nat.ofDigits 10 L : Nat) := by
  induction L with
  | nil => simp [digitsValue]
  | cons d L ih =>
    rw [List.reverse_cons, List.map_append, List.map_singleton, digitsValue_append, ih,
      Nat.ofDigits_cons]
    push_cast
    ring

theorem digitsValue_decimal (n : Nat) : digitsValue (decimal n) = n := by
  unfold decimal
  split
  · subst_vars
    rfl
  · rw [digitsValue_digits, Nat.ofDigits_digits]

theorem decimal_digit (n : Nat) : ∀ d ∈ decimal n, 48 ≤ d ∧ d ≤ 57 := by
  intro d hd
  unfold decimal at hd
  split at hd
  · simp at hd
    omega
  · simp only [List.mem_map, List.mem_reverse] at hd
    obtain ⟨x, hx, rfl⟩ := hd
    have := Nat.digits_lt_base (by norm_num : 1 < 10) hx
    omega

theorem decimal_ne_nil (n : Nat) : decimal n ≠ [] := by
  unfold decimal
  split
  · simp
  · simpa using Nat.digits_ne_nil_iff_ne_zero.mpr ‹_›

theorem decimal_length (n : Nat) (h : n ≤ 2147483647) : (decimal n).length ≤ 10 := by
  unfold decimal
  split
  · simp
  · rename_i hn
    simp only [List.length_map, List.length_reverse]
    by_contra hlen
    have h1 := Nat.base_pow_length_digits_le 10 n (by norm_num) hn
    have h2 : 10 ^ 11 ≤ 10 ^ (Nat.digits 10 n).length :=
      Nat.pow_le_pow_right (by norm_num) (by omega)
    norm_num at h2
    omega

theorem stoi_digits (ds : List Int) (hne : ds ≠ []) (hd : ∀ d ∈ ds, 48 ≤ d ∧ d ≤ 57)
    (hv : digitsValue ds ≤ 2147483647) (h0 : 0 ≤ digitsValue ds) :
    stoi ds = .ok (digitsValue ds) := by
  obtain ⟨d, t, rfl⟩ := List.exists_cons_of_ne_nil hne
  have hd0 := hd d (List.mem_cons_self _ _)
  have hsp : isSpace d = false := by
    simp [isSpace]
    omega
  have hdrop : (d :: t).dropWhile isSpace = d :: t := by simp [List.dropWhile, hsp]
  have h45 : d ≠ 45 := by omega
  have h43 : d ≠ 43 := by omega
  have htake : (d :: t).takeWhile isDigit = d :: t := by
    rw [List.takeWhile_eq_self_iff]
    intro x hx
    have := hd x hx
    simp [isDigit, this.1, this.2]
  simp only [stoi, hdrop, List.head?_cons, Option.some.injEq, h45, h43, or_self, if_false,
    htake, List.isEmpty_cons, Bool.false_eq_true]
  rw [if_neg]
  omega


theorem stoi_decimal (n : Nat) (h : n ≤ 2147483647) : stoi (decimal n) = .ok (n : Int) := by
  have hv := digitsValue_decimal n
  rw [stoi_digits (decimal n) (decimal_ne_nil n) (decimal_digit n) (by rw [hv]; omega)
    (by rw [hv]; omega), hv]

theorem filter_chars_decimal (r c : Nat) :
    (91 :: (decimal r ++ 59 :: decimal c)).filter (fun x => decide (x ∈ CHARS))
      = decimal r ++ 59 :: decimal c := by
  have hmem : ∀ n, ∀ d ∈ decimal n, d ∈ CHARS := by
    intro n d hd
    have := decimal_digit n d hd
    have h1 : 48 ≤ d := this.1
    have h2 : d ≤ 57 := this.2
    interval_cases d <;> decide
  rw [List.filter_cons_of_neg (by decide), List.filter_eq_self]
  intro x hx
  rcases List.mem_append.mp hx with h | h
  · simpa using hmem r x h
  · rcases List.mem_cons.mp h with h | h
    · subst h
      decide
    · simpa using hmem c x h

theorem setAt_length (buff b : List Int) (i : Nat) (v : Int) (h : setAt buff i v = .ok b) :
    b.length = buff.length := by
  unfold setAt at h
  split at h
  · cases h
    simp
  · cases h

theorem readReply_fuel (fuel : Nat) :
    ∀ (indx : Nat) (buff stdin : List Int), buff.length = 32 → 33 ≤ fuel + indx → 1 ≤ fuel →
      cursor.readReply fuel indx buff stdin ≠ .error .outOfFuel
      ∧ ∀ b s, cursor.readReply fuel indx buff stdin = .ok (b, s) → b.length = 32 := by
  induction fuel with
  | zero => intro _ _ _ _ _ h; omega
  | succ f ih =>
    intro indx buff stdin hb hf _
    simp only [cursor.readReply]
    cases h1 : setAt buff indx (toChar (getchar stdin).1) with
    | error e =>
      have : e ≠ .outOfFuel := by
        unfold setAt at h1
        split at h1 <;> cases h1
        intro h; cases h
      constructor
      · intro h
        cases h
        exact this rfl
      · intro b s h
        cases h
    | ok buff1 =>
      have hl1 := (setAt_length _ _ _ _ h1).trans hb
      have hi : indx < 32 := by
        unfold setAt at h1
        split at h1
        · omega
        · cases h1
      simp only [bind_ok]
      split
      · cases h2 : setAt buff1 (indx + 1 + 1) 0 with
        | error e =>
          have : e ≠ .outOfFuel := by
            unfold setAt at h2
            split at h2 <;> cases h2
            intro h; cases h
          constructor
          · intro h
            cases h
            exact this rfl
          · intro b s h
            cases h
        | ok buff2 =>
          have hl2 := (setAt_length _ _ _ _ h2).trans hl1
          constructor
          · intro h
            cases h
          · intro b s h
            cases h
            exact hl2
      · exact ih (indx + 1) buff1 _ hl1 (by omega) (by omega)

theorem collect_fuel (fuel : Nat) :
    ∀ (indx : Nat) (chr : Int) (buff str : List Int), buff.length = 32 → 33 ≤ fuel + indx →
      1 ≤ fuel → cursor.collect fuel indx chr buff str ≠ .error .outOfFuel := by
  induction fuel with
  | zero => intro _ _ _ _ _ _ h; omega
  | succ f ih =>
    intro indx chr buff str hb hf _
    simp only [cursor.collect]
    split
    · cases h1 : getAt buff (indx + 1) with
      | error e =>
        unfold getAt at h1
        split at h1 <;> cases h1
        intro h; cases h
      | ok chr1 =>
        have hi : indx + 1 < 32 := by
          unfold getAt at h1
          split at h1
          · rename_i v hv
            have := (List.getElem?_eq_some_iff.mp hv).1
            omega
          · cases h1
        simp only [bind_ok]
        exact ih (indx + 1) chr1 buff _ hb (by omega) (by omega)
    · intro h; cases h

theorem stoi_fuel (str : List Int) : stoi str ≠ .error .outOfFuel := by
  simp only [stoi]
  split_ifs <;> simp

/-- The fuel given to the two loops of `position` is never used up: a loop that
goes on leaves `buff` first. -/
theorem position_fuel (w : Streams) (stdin : List Int) :
    (cursor.position w stdin).2 ≠ .error .outOfFuel := by
  simp only [cursor.position]
  have hr := readReply_fuel 33 0 (List.replicate 32 0) stdin (by simp) (by omega) (by omega)
  cases h1 : cursor.readReply 33 0 (List.replicate 32 0) stdin with
  | error e =>
    intro h
    cases h
    exact hr.1 h1
  | ok res =>
    obtain ⟨buff, stdin1⟩ := res
    have hl := hr.2 buff stdin1 h1
    simp only [bind_ok]
    cases h2 : getAt buff 1 with
    | error e =>
      unfold getAt at h2
      split at h2 <;> cases h2
      intro h; cases h
    | ok chr =>
      simp only [bind_ok]
      have hc := collect_fuel 33 1 chr buff [] hl (by omega) (by omega)
      cases h3 : cursor.collect 33 1 chr buff [] with
      | error e =>
        intro h
        cases h
        exact hc h3
      | ok str =>
        simp only [bind_ok]
        generalize (match find 59 str with
          | some pos => (List.take pos str, List.drop (pos + 1) str)
          | none => (str, str)) = parts
        obtain ⟨first, second⟩ := parts
        simp only
        cases h4 : stoi first with
        | error e =>
          intro h
          cases h
          exact stoi_fuel first h4
        | ok row =>
          simp only [bind_ok]
          cases h5 : stoi second with
          | error e =>
            intro h
            cases h
            exact stoi_fuel second h5
          | ok col =>
            intro h
            cases h

/-- C24, amended: for all naturals `r` and `c` that are at most 2147483647, the
largest `int`, the reply ESC '[' decimal(r) ';' decimal(c) 'R' has at most 30
bytes, and when the bytes read from standard input are that reply,
`cursor::position` returns `Pos(r, c)` and leaves what follows the reply
unread. -/
theorem position_reply (r c : Nat) (hr : r ≤ 2147483647) (hc : c ≤ 2147483647)
    (w : Streams) (rest : List Int) :
    (reply r c).length ≤ 30
    ∧ (cursor.position w (reply r c ++ rest)).2 = .ok (⟨r, c⟩, rest) := by
  have hlr := decimal_length r hr
  have hlc := decimal_length c hc
  have hlen : (reply r c).length ≤ 30 := by
    simp [reply]
    omega
  refine ⟨hlen, ?_⟩
  have hin : reply r c ++ rest = (27 :: 91 :: (decimal r ++ 59 :: decimal c)) ++ 82 :: rest := by
    simp [reply]
  have hpre : ∀ x ∈ (27 : Int) :: 91 :: (decimal r ++ 59 :: decimal c),
      0 ≤ x ∧ x < 128 ∧ x ≠ 82 := by
    intro x hx
    simp only [List.mem_cons, List.mem_append] at hx
    rcases hx with h | h | h | h | h
    · omega
    · omega
    · have := decimal_digit r x h
      omega
    · omega
    · have := decimal_digit c x h
      omega
  have hread := readReply_reply (27 :: 91 :: (decimal r ++ 59 :: decimal c)) [] 32 33 rest hpre
    (by simp; omega) (by simp; omega)
  simp only [List.length_nil, List.nil_append] at hread
  have hget : ∀ k, getAt (27 :: 91 :: (decimal r ++ 59 :: decimal c)
      ++ 82 :: List.replicate k 0) 1 = .ok 91 := fun k => by simp [getAt]
  have hcol := collect_reply (decimal r ++ 59 :: decimal c) [27] 91 []
    (List.replicate (32 - (27 :: 91 :: (decimal r ++ 59 :: decimal c)).length - 1) 0) 33
    (fun x hx => (hpre x (List.mem_cons_of_mem _ hx)).2.2) (by simp; omega)
  rw [filter_chars_decimal] at hcol
  have h59 : (59 : Int) ∉ decimal r := by
    intro h
    have := decimal_digit r 59 h
    omega
  have hfind := find_append 59 (decimal r) (decimal c) h59
  simp only [cursor.position, hin, hread, bind_ok, hget]
  simp only [List.length_singleton, List.singleton_append, List.nil_append] at hcol
  simp only [List.cons_append, List.append_assoc] at hcol ⊢
  rw [hcol]
  simp only [bind_ok, hfind, List.take_left, List.drop_left]
  have hdrop : List.drop ((decimal r).length + 1) (decimal r ++ 59 :: decimal c)
      = decimal c := by
    induction decimal r with
    | nil => rfl
    | cons a l ih => simp
  have hsize : ∀ n : Nat, n ≤ 2147483647 → toSizeT (n : Int) = n := by
    intro n hn
    unfold toSizeT
    omega
  rw [hdrop, stoi_decimal r hr, stoi_decimal c hc]
  simp only [bind_ok, hsize r hr, hsize c hc]
  rfl

theorem position_reply_witness :
    24 ≤ 2147483647 ∧ 80 ≤ 2147483647
    ∧ (cursor.position Streams.empty (reply 24 80 ++ [])).2 = .ok (⟨24, 80⟩, []) :=
  ⟨by decide, by decide, (position_reply 24 80 (by decide) (by decide) Streams.empty []).2⟩

/-- C24 as stated fails: the reply for row 2147483648 and column 1 has 15 bytes
and fits the buffer, and `std::stoi` throws `std::out_of_range` on the row, so
no `Pos` is returned. -/
theorem position_reply_large_row :
    (reply 2147483648 1).length ≤ 30
    ∧ (cursor.position Streams.empty (reply 2147483648 1)).2 = .error .outOfRange
    ∧ (cursor.position Streams.empty (reply 2147483648 1)).2 ≠ .ok (⟨2147483648, 1⟩, []) := by
  have h : reply 2147483648 1
      = [27, 91, 50, 49, 52, 55, 52, 56, 51, 54, 52, 56, 59, 49, 82] := by
    simp [reply, decimal]
  rw [h]
  refine ⟨by decide, rfl, ?_⟩
  intro hne
  have hr : (cursor.position Streams.empty
      [27, 91, 50, 49, 52, 55, 52, 56, 51, 54, 52, 56, 59, 49, 82]).2
      = .error .outOfRange := rfl
  rw [hr] at hne
  cases hne

end term
